import Mathlib

/-!
# Verification of the terraform-module-resolve module-graph resolver

Shallow embedding of `main.go` of the `terraform-module-resolve` repository.

Conventions of the embedding:

* Go strings are modelled as `List Char` (`GoStr`).  Go byte strings of the
  program are ASCII path/source strings, so character lists are faithful.
* Absolute, cleaned filesystem paths are modelled as lists of path components
  (`FPath`); the string `"/a/b"` corresponds to `["a","b"]` (each component a
  `GoStr`).  All paths handed to the resolver are absolute and cleaned, which
  matches the program: every path it stores has passed through
  `filepath.Abs`/`filepath.Join` (both clean their result).
* `joinClean dir src` models `filepath.Join(dir, src)` followed by
  `filepath.Abs` for an absolute `dir`: the source string is split on `/` and
  folded over the component list, with `.`/empty components skipped and `..`
  popping one component (popping at the root is a no-op, as in Go's
  `filepath.Clean`).
* `goRel` models Go's `filepath.Rel` restricted to two absolute cleaned
  paths (the only way the program calls it); on such inputs `filepath.Rel`
  never returns an error, so the error branch of `isInDirectory` is dead and
  is not modelled.
* The filesystem is a finite association list `FS` from canonical directory
  paths to their contents.  A directory holds: `entries` (`none` models
  `os.ReadDir` failing), the module calls that `tfconfig.LoadModule` reports
  for it, and `parseErr` (models `diags.HasErrors()`).  A path outside the
  association list behaves like a missing directory: listing fails and the
  parser reports diagnostics.
* Go iterates `module.ModuleCalls`, which is a Go `map`; map iteration order
  is unspecified and may differ between runs on an identical filesystem.
  `DirInfo.calls` records the iteration sequence that one concrete run
  observes.  Two runs over the same filesystem state are therefore modelled
  by two `FS` values whose per-directory `calls` lists are permutations of
  each other.
* The mutually recursive traversal is written with the per-directory loop
  (`processCalls`) parameterised by the recursive analyzer (`descend`), and
  `analyzeRecursive` structurally recursive on a fuel counter.  The Go
  recursion terminates because every descent marks a previously unvisited
  directory that is present on the (finite) filesystem; `Analyze` passes
  `fs.dirs.length + 1` fuel, which that argument shows is never exhausted.
  Fuel exhaustion is kept observable as the artificial error `Err.fuel`.
* Warnings printed to stderr (`Warning`) are threaded through the state so
  that the non-fatal error behaviour is observable; `Analyze` returns them
  next to the `Output` in `Res.ok`.
* `os.Getwd` is modelled by an explicit `cwd` parameter (the program ignores
  its error).
-/

/-- A Go string: a list of characters. -/
abbrev GoStr := List Char

/-- An absolute, cleaned path, as its list of components. -/
abbrev FPath := List GoStr

/-- Models `strings.Split(s, "/")` (empty components preserved). -/
def splitSlash : GoStr → List GoStr
  | [] => [[]]
  | c :: rest =>
    let r := splitSlash rest
    if c = '/' then [] :: r
    else
      match r with
      | h :: t => (c :: h) :: t
      | [] => [[c]]

/-- Models `filepath.Join(dir, src)` followed by `filepath.Abs` for an
absolute `dir`: lexical cleaning over the component list. -/
def joinClean (dir : FPath) (src : GoStr) : FPath :=
  (splitSlash src).foldl
    (fun acc c =>
      if c = [] then acc
      else if c = ".".toList then acc
      else if c = "..".toList then acc.dropLast
      else acc ++ [c]) dir

/-- Models `filepath.IsAbs`: the string starts with a slash. -/
def isAbsStr (f : GoStr) : Bool :=
  match f with
  | c :: _ => c = '/'
  | [] => false

/-- Models the changed-path normalisation in `IsAffected` and
`FilterRelatedFiles`: `filepath.Join(cwd, f)` for relative `f`, then
`filepath.Abs` (which cleans). -/
def resolveAbs (cwd : FPath) (f : GoStr) : FPath :=
  if isAbsStr f then joinClean [] f else joinClean cwd f

/-- Length of the common component prefix of two paths. -/
def commonPrefixLen : FPath → FPath → Nat
  | a :: as, b :: bs => if a = b then commonPrefixLen as bs + 1 else 0
  | _, _ => 0

/-- Models `filepath.Rel(base, targ)` for absolute cleaned paths: strip the
common component prefix, prepend one `..` per remaining base component, join
with `/`; both remainders empty gives `"."`. -/
def goRel (base targ : FPath) : GoStr :=
  let n := commonPrefixLen base targ
  let baseRem := base.drop n
  let targRem := targ.drop n
  if baseRem = [] ∧ targRem = [] then ".".toList
  else List.intercalate "/".toList (baseRem.map (fun _ => "..".toList) ++ targRem)

/-- `isInDirectory` of `main.go`: the relative path from `dirPath` to
`filePath` neither starts with `"../"` nor equals `".."`. -/
def isInDirectory (filePath dirPath : FPath) : Bool :=
  let rel := goRel dirPath filePath
  !("../".toList.isPrefixOf rel) && !(decide (rel = "..".toList))

/-- `isLocalPath` of `main.go`. -/
def isLocalPath (src : GoStr) : Bool :=
  "./".toList.isPrefixOf src || "../".toList.isPrefixOf src

/-- One directory entry as returned by `os.ReadDir`. -/
structure DirEntry where
  name : GoStr
  isDir : Bool
deriving DecidableEq

/-- One module call as reported by `tfconfig.LoadModule`. -/
structure ModuleCall where
  name : GoStr
  source : GoStr
  version : GoStr
deriving DecidableEq

/-- `ModuleDetail` of `main.go`. -/
structure ModuleDetail where
  name : GoStr
  source : GoStr
  resolvedPath : FPath
  files : List FPath
deriving DecidableEq

/-- `RemoteModule` of `main.go`. -/
structure RemoteModule where
  name : GoStr
  source : GoStr
  version : GoStr
  calledFrom : GoStr
deriving DecidableEq

/-- `Output` of `main.go`. -/
structure Output where
  rootModule : ModuleDetail
  localModules : List ModuleDetail
  remoteModules : List RemoteModule
deriving DecidableEq

/-- The observable contents of one directory. -/
structure DirInfo where
  entries : Option (List DirEntry)
  calls : List ModuleCall
  parseErr : Bool
deriving DecidableEq

/-- A finite filesystem: canonical directory paths with their contents. -/
structure FS where
  dirs : List (FPath × DirInfo)
deriving DecidableEq

/-- Look a directory up; a missing directory cannot be listed and the parser
reports diagnostics for it. -/
def FS.find (fs : FS) (p : FPath) : DirInfo :=
  match fs.dirs.find? (fun e => e.1 = p) with
  | some e => e.2
  | none => ⟨none, [], true⟩

/-- The loop body of `listTerraformFiles`: the non-directory entries whose
name ends in `.tf` or `.tf.json`, each joined onto `dir`. -/
def tfNames (dir : FPath) (es : List DirEntry) : List FPath :=
  (es.filter (fun e =>
    !e.isDir && (".tf".toList.isSuffixOf e.name || ".tf.json".toList.isSuffixOf e.name))).map
      (fun e => dir ++ [e.name])

/-- `listTerraformFiles` of `main.go`: fails when the directory cannot be
listed, otherwise returns its configuration files. -/
def listTerraformFiles (fs : FS) (dir : FPath) : Option (List FPath) :=
  match (fs.find dir).entries with
  | none => none
  | some es => some (tfNames dir es)

/-- Fatal errors of the resolver.  `Err.fuel` is the embedding's fuel
artifact; it never occurs at the fuel `Analyze` supplies. -/
inductive Err where
  | rootList : FPath → Err
  | parse : FPath → Err
  | fuel : Err
deriving DecidableEq

/-- Warnings printed to stderr by `analyzeRecursive`. -/
inductive Warning where
  | cannotRead : FPath → Warning
  | failedAnalyze : FPath → Err → Warning
deriving DecidableEq

/-- The mutable traversal context of `Analyze`: the visited set and the
accumulators, plus the stderr warning stream. -/
structure St where
  visited : List FPath
  locals : List ModuleDetail
  remotes : List RemoteModule
  warns : List Warning
deriving DecidableEq

/-- The loop body of `analyzeRecursive` over one directory's module calls,
parameterised by the recursive analyzer `descend`.  A local call whose
directory cannot be listed is skipped with a warning; otherwise its record is
appended and the traversal descends, any fatal error of the descent being
downgraded to a warning.  Remote calls are appended to `remotes` with the
caller label. -/
def processCalls (fs : FS) (descend : FPath → GoStr → St → St × Option Err)
    (dir : FPath) (calledFrom : GoStr) : List ModuleCall → St → St × Option Err
  | [], st => (st, none)
  | call :: rest, st =>
    if isLocalPath call.source then
      let rp := joinClean dir call.source
      match listTerraformFiles fs rp with
      | none =>
        processCalls fs descend dir calledFrom rest
          ⟨st.visited, st.locals, st.remotes, st.warns ++ [Warning.cannotRead rp]⟩
      | some files =>
        let st1 : St := ⟨st.visited, st.locals ++ [⟨call.name, call.source, rp, files⟩],
          st.remotes, st.warns⟩
        let res := descend rp call.name st1
        let st3 : St :=
          match res.2 with
          | some e => ⟨res.1.visited, res.1.locals, res.1.remotes,
              res.1.warns ++ [Warning.failedAnalyze rp e]⟩
          | none => res.1
        processCalls fs descend dir calledFrom rest st3
    else
      let caller := if calledFrom = [] then "(root)".toList else calledFrom
      processCalls fs descend dir calledFrom rest
        ⟨st.visited, st.locals, st.remotes ++ [⟨call.name, call.source, call.version, caller⟩],
          st.warns⟩

/-- `analyzeRecursive` of `main.go` (fuel-indexed): return at once for a
visited directory, otherwise mark it visited, fail fatally if the parser
reports diagnostics for it, and otherwise process its module calls. -/
def analyzeRecursive (fs : FS) : Nat → FPath → GoStr → St → St × Option Err
  | 0, _, _, st => (st, some Err.fuel)
  | fuel + 1, dir, calledFrom, st =>
    if dir ∈ st.visited then (st, none)
    else
      let st1 : St := ⟨dir :: st.visited, st.locals, st.remotes, st.warns⟩
      let info := fs.find dir
      if info.parseErr then (st1, some (Err.parse dir))
      else
        processCalls fs (fun p l s => analyzeRecursive fs fuel p l s)
          dir calledFrom info.calls st1

/-- Result of `Analyze`, with the stderr warning stream made observable. -/
inductive Res where
  | ok : Output → List Warning → Res
  | err : Err → Res
deriving DecidableEq

/-- `Analyze` of `main.go`.  `rootDir` is taken already absolute and cleaned
(`filepath.Abs` of the CLI argument).  Failure to list the root directory is
fatal; then the traversal runs from an empty state. -/
def Analyze (fs : FS) (rootDir : FPath) : Res :=
  match listTerraformFiles fs rootDir with
  | none => Res.err (Err.rootList rootDir)
  | some rootFiles =>
    let r := analyzeRecursive fs (fs.dirs.length + 1) rootDir [] ⟨[], [], [], []⟩
    match r.2 with
    | some e => Res.err e
    | none => Res.ok ⟨⟨[], [], rootDir, rootFiles⟩, r.1.locals, r.1.remotes⟩ r.1.warns

/-- `IsAffected` of `main.go`: some changed path, made absolute, lies in the
root module's directory or in some local module's directory. -/
def IsAffected (cwd : FPath) (changedFiles : List GoStr) (output : Output) : Bool :=
  changedFiles.any (fun f =>
    let absPath := resolveAbs cwd f
    isInDirectory absPath output.rootModule.resolvedPath ||
      output.localModules.any (fun m => isInDirectory absPath m.resolvedPath))

/-- Membership of a module path in the `affectedModulePaths` map that
`FilterRelatedFiles` builds: some changed path, made absolute, lies in it.
(The Go code iterates the changed-path set to fill the map; membership is
order-independent.) -/
def pathAffected (cwd : FPath) (changedFiles : List GoStr) (p : FPath) : Bool :=
  changedFiles.any (fun f => isInDirectory (resolveAbs cwd f) p)

/-- The `seen`-map deduplicating append used by `FilterRelatedFiles` and
`CollectAllFiles`: extend `acc` with the not-yet-present files, in order. -/
def appendUnseen (acc : List FPath) (files : List FPath) : List FPath :=
  files.foldl (fun a f => if f ∈ a then a else a ++ [f]) acc

/-- `FilterRelatedFiles` of `main.go`: emit the root module's files if the
root directory is affected, then each affected local module's files in
`localModules` order, first occurrence kept.  The `allFiles` argument is
accepted and ignored, as in the Go code. -/
def FilterRelatedFiles (cwd : FPath) (allFiles : List FPath) (changedFiles : List GoStr)
    (output : Output) : List FPath :=
  let base :=
    if pathAffected cwd changedFiles output.rootModule.resolvedPath then
      appendUnseen [] output.rootModule.files
    else []
  output.localModules.foldl
    (fun acc m =>
      if pathAffected cwd changedFiles m.resolvedPath then appendUnseen acc m.files
      else acc) base

/-- `CollectAllFiles` of `main.go`: root files then each local module's
files, first occurrence kept. -/
def CollectAllFiles (output : Output) : List FPath :=
  output.localModules.foldl (fun acc m => appendUnseen acc m.files)
    (appendUnseen [] output.rootModule.files)

/-- Specification-side first-occurrence deduplication (keep an element,
drop its later duplicates). -/
def dedupFirst : List FPath → List FPath
  | [] => []
  | x :: xs => x :: dedupFirst (xs.filter (fun y => y ≠ x))
termination_by l => l.length
decreasing_by
  simp only [List.length_cons]
  exact Nat.lt_succ_of_le (List.length_filter_le _ _)

/-- The records that one directory's call list contributes directly to
`localModules`: one per local call whose directory can be listed. -/
def directRecords (fs : FS) (dir : FPath) (calls : List ModuleCall) : List ModuleDetail :=
  calls.filterMap (fun call =>
    if isLocalPath call.source then
      match listTerraformFiles fs (joinClean dir call.source) with
      | some files => some ⟨call.name, call.source, joinClean dir call.source, files⟩
      | none => none
    else none)

/-! ## Concrete example data

Small concrete filesystems used by the counterexamples and witnesses.
Path components and call fields are written as string literals converted to
character lists. -/

/-- A configuration-file directory entry. -/
def tfEntry (s : String) : DirEntry := ⟨s.toList, false⟩

/-- The resolved paths of the local module records of a result (empty on
error). -/
def localPathsOf : Res → List FPath
  | Res.ok o _ => o.localModules.map (fun m => m.resolvedPath)
  | Res.err _ => []

/-- A tree in which two distinct caller directories (`/r/a` and `/r/b`) both
reference the same module directory `/r/m`. -/
def fsShared : FS :=
  ⟨[ (["r".toList], ⟨some [tfEntry "main.tf"],
       [⟨"ma".toList, "./a".toList, "".toList⟩,
        ⟨"mb".toList, "./b".toList, "".toList⟩], false⟩),
     (["r".toList, "a".toList], ⟨some [tfEntry "a.tf"],
       [⟨"mm1".toList, "../m".toList, "".toList⟩], false⟩),
     (["r".toList, "b".toList], ⟨some [tfEntry "b.tf"],
       [⟨"mm2".toList, "../m".toList, "".toList⟩], false⟩),
     (["r".toList, "m".toList], ⟨some [tfEntry "m.tf"], [], false⟩) ]⟩

/-- A root `/r` with two local calls, in one map-iteration order. -/
def fsOrder1 : FS :=
  ⟨[ (["r".toList], ⟨some [tfEntry "main.tf"],
       [⟨"ma".toList, "./a".toList, "".toList⟩,
        ⟨"mb".toList, "./b".toList, "".toList⟩], false⟩),
     (["r".toList, "a".toList], ⟨some [tfEntry "a.tf"], [], false⟩),
     (["r".toList, "b".toList], ⟨some [tfEntry "b.tf"], [], false⟩) ]⟩

/-- The same filesystem state as `fsOrder1`, observed with the opposite
map-iteration order of the root's two calls. -/
def fsOrder2 : FS :=
  ⟨[ (["r".toList], ⟨some [tfEntry "main.tf"],
       [⟨"mb".toList, "./b".toList, "".toList⟩,
        ⟨"ma".toList, "./a".toList, "".toList⟩], false⟩),
     (["r".toList, "a".toList], ⟨some [tfEntry "a.tf"], [], false⟩),
     (["r".toList, "b".toList], ⟨some [tfEntry "b.tf"], [], false⟩) ]⟩

/-- Mutually referencing module directories `/x/a` and `/x/b`: each declares
one local call to the other (the specification's cycle example). -/
def fsCycle : FS :=
  ⟨[ (["x".toList, "a".toList], ⟨some [tfEntry "a.tf"],
       [⟨"mb".toList, "../b".toList, "".toList⟩], false⟩),
     (["x".toList, "b".toList], ⟨some [tfEntry "b.tf"],
       [⟨"ma".toList, "../a".toList, "".toList⟩], false⟩) ]⟩

/-- A tree whose root `/p` calls a parse-broken child `/p/bad` and then a
healthy sibling `/p/ok`. -/
def fsParse : FS :=
  ⟨[ (["p".toList], ⟨some [tfEntry "main.tf"],
       [⟨"mbad".toList, "./bad".toList, "".toList⟩,
        ⟨"mok".toList, "./ok".toList, "".toList⟩], false⟩),
     (["p".toList, "bad".toList], ⟨some [tfEntry "bad.tf"], [], true⟩),
     (["p".toList, "ok".toList], ⟨some [tfEntry "ok.tf"], [], false⟩) ]⟩

/-- A tree whose root `/q` declares a local call to the missing directory
`/q/gone`. -/
def fsMissing : FS :=
  ⟨[ (["q".toList], ⟨some [tfEntry "main.tf"],
       [⟨"gone".toList, "./gone".toList, "".toList⟩], false⟩) ]⟩

/-- A local module record at `/repo/modules/m`, outside the root directory
of `outputW`. -/
def modM : ModuleDetail :=
  ⟨"m".toList, "../../modules/m".toList,
    ["repo".toList, "modules".toList, "m".toList],
    [["repo".toList, "modules".toList, "m".toList, "main.tf".toList]]⟩

/-- A result whose root is `/repo/envs/prod` with the single local module
`modM`. -/
def outputW : Output :=
  ⟨⟨[], [], ["repo".toList, "envs".toList, "prod".toList],
     [["repo".toList, "envs".toList, "prod".toList, "main.tf".toList]]⟩,
   [modM], []⟩

/-! ## Basic lemmas about the path model -/

theorem commonPrefixLen_self (l : FPath) : commonPrefixLen l l = l.length := by
  induction l with
  | nil => rfl
  | cons a as ih => simp [commonPrefixLen, ih]

theorem goRel_self (l : FPath) : goRel l l = ".".toList := by
  simp [goRel, commonPrefixLen_self, List.drop_length]

/-! ## Step equations for the traversal -/

theorem processCalls_nil_eq (fs : FS) (descend : FPath → GoStr → St → St × Option Err)
    (dir : FPath) (cf : GoStr) (st : St) :
    processCalls fs descend dir cf [] st = (st, none) := rfl

theorem processCalls_remote_eq (fs : FS) (descend : FPath → GoStr → St → St × Option Err)
    (dir : FPath) (cf : GoStr) (call : ModuleCall) (rest : List ModuleCall) (st : St)
    (h : isLocalPath call.source = false) :
    processCalls fs descend dir cf (call :: rest) st =
      processCalls fs descend dir cf rest
        ⟨st.visited, st.locals,
          st.remotes ++ [⟨call.name, call.source, call.version,
            if cf = [] then "(root)".toList else cf⟩], st.warns⟩ := by
  rw [processCalls]
  simp [h]

theorem processCalls_skip_eq (fs : FS) (descend : FPath → GoStr → St → St × Option Err)
    (dir : FPath) (cf : GoStr) (call : ModuleCall) (rest : List ModuleCall) (st : St)
    (h : isLocalPath call.source = true)
    (hf : listTerraformFiles fs (joinClean dir call.source) = none) :
    processCalls fs descend dir cf (call :: rest) st =
      processCalls fs descend dir cf rest
        ⟨st.visited, st.locals, st.remotes,
          st.warns ++ [Warning.cannotRead (joinClean dir call.source)]⟩ := by
  rw [processCalls]
  simp [h, hf]

theorem processCalls_descend_err (fs : FS) (descend : FPath → GoStr → St → St × Option Err)
    (dir : FPath) (cf : GoStr) (call : ModuleCall) (rest : List ModuleCall) (st : St)
    (files : List FPath) (st2 : St) (e : Err)
    (h : isLocalPath call.source = true)
    (hf : listTerraformFiles fs (joinClean dir call.source) = some files)
    (hd : descend (joinClean dir call.source) call.name
      ⟨st.visited, st.locals ++ [⟨call.name, call.source, joinClean dir call.source, files⟩],
        st.remotes, st.warns⟩ = (st2, some e)) :
    processCalls fs descend dir cf (call :: rest) st =
      processCalls fs descend dir cf rest
        ⟨st2.visited, st2.locals, st2.remotes,
          st2.warns ++ [Warning.failedAnalyze (joinClean dir call.source) e]⟩ := by
  rw [processCalls]
  simp [h, hf, hd]

theorem processCalls_descend_ok (fs : FS) (descend : FPath → GoStr → St → St × Option Err)
    (dir : FPath) (cf : GoStr) (call : ModuleCall) (rest : List ModuleCall) (st : St)
    (files : List FPath) (st2 : St)
    (h : isLocalPath call.source = true)
    (hf : listTerraformFiles fs (joinClean dir call.source) = some files)
    (hd : descend (joinClean dir call.source) call.name
      ⟨st.visited, st.locals ++ [⟨call.name, call.source, joinClean dir call.source, files⟩],
        st.remotes, st.warns⟩ = (st2, none)) :
    processCalls fs descend dir cf (call :: rest) st =
      processCalls fs descend dir cf rest st2 := by
  rw [processCalls]
  simp [h, hf, hd]

theorem analyzeRecursive_zero (fs : FS) (dir : FPath) (cf : GoStr) (st : St) :
    analyzeRecursive fs 0 dir cf st = (st, some Err.fuel) := rfl

theorem analyzeRecursive_visited (fs : FS) (fuel : Nat) (dir : FPath) (cf : GoStr) (st : St)
    (h : dir ∈ st.visited) :
    analyzeRecursive fs (fuel + 1) dir cf st = (st, none) := by
  rw [analyzeRecursive]
  simp [h]

theorem analyzeRecursive_parse (fs : FS) (fuel : Nat) (dir : FPath) (cf : GoStr) (st : St)
    (h : dir ∉ st.visited) (hp : (fs.find dir).parseErr = true) :
    analyzeRecursive fs (fuel + 1) dir cf st =
      (⟨dir :: st.visited, st.locals, st.remotes, st.warns⟩, some (Err.parse dir)) := by
  rw [analyzeRecursive]
  simp [h, hp]

theorem analyzeRecursive_descend (fs : FS) (fuel : Nat) (dir : FPath) (cf : GoStr) (st : St)
    (h : dir ∉ st.visited) (hp : (fs.find dir).parseErr = false) :
    analyzeRecursive fs (fuel + 1) dir cf st =
      processCalls fs (fun p l s => analyzeRecursive fs fuel p l s) dir cf
        (fs.find dir).calls ⟨dir :: st.visited, st.locals, st.remotes, st.warns⟩ := by
  rw [analyzeRecursive]
  simp [h, hp]

/-! ## Invariants of the traversal -/

/-- The traversal only prepends to the visited set and appends to the
accumulators. -/
def StExt (st st' : St) : Prop :=
  (∃ v, st'.visited = v ++ st.visited) ∧ (∃ l, st'.locals = st.locals ++ l) ∧
    (∃ r, st'.remotes = st.remotes ++ r) ∧ (∃ w, st'.warns = st.warns ++ w)

theorem StExt.refl (st : St) : StExt st st :=
  ⟨⟨[], by simp⟩, ⟨[], by simp⟩, ⟨[], by simp⟩, ⟨[], by simp⟩⟩

theorem StExt.trans {a b c : St} (h1 : StExt a b) (h2 : StExt b c) : StExt a c := by
  obtain ⟨⟨v1, hv1⟩, ⟨l1, hl1⟩, ⟨r1, hr1⟩, ⟨w1, hw1⟩⟩ := h1
  obtain ⟨⟨v2, hv2⟩, ⟨l2, hl2⟩, ⟨r2, hr2⟩, ⟨w2, hw2⟩⟩ := h2
  exact ⟨⟨v2 ++ v1, by simp [hv2, hv1]⟩, ⟨l1 ++ l2, by simp [hl2, hl1]⟩,
    ⟨r1 ++ r2, by simp [hr2, hr1]⟩, ⟨w1 ++ w2, by simp [hw2, hw1]⟩⟩

theorem processCalls_stExt (fs : FS) (descend : FPath → GoStr → St → St × Option Err)
    (dir : FPath) (cf : GoStr) (hd : ∀ p l s, StExt s (descend p l s).1) :
    ∀ calls st, StExt st (processCalls fs descend dir cf calls st).1 := by
  intro calls
  induction calls with
  | nil => intro st; exact StExt.refl st
  | cons call rest ih =>
    intro st
    cases hl : isLocalPath call.source with
    | false =>
      rw [processCalls_remote_eq fs descend dir cf call rest st hl]
      refine StExt.trans ?_ (ih _)
      exact ⟨⟨[], by simp⟩, ⟨[], by simp⟩, ⟨_, rfl⟩, ⟨[], by simp⟩⟩
    | true =>
      cases hf : listTerraformFiles fs (joinClean dir call.source) with
      | none =>
        rw [processCalls_skip_eq fs descend dir cf call rest st hl hf]
        refine StExt.trans ?_ (ih _)
        exact ⟨⟨[], by simp⟩, ⟨[], by simp⟩, ⟨[], by simp⟩, ⟨_, rfl⟩⟩
      | some files =>
        rcases hdes : descend (joinClean dir call.source) call.name
          ⟨st.visited, st.locals ++ [⟨call.name, call.source, joinClean dir call.source, files⟩],
            st.remotes, st.warns⟩ with ⟨st2, e?⟩
        have hext : StExt st st2 := by
          have h1 : StExt st (⟨st.visited,
              st.locals ++ [⟨call.name, call.source, joinClean dir call.source, files⟩],
              st.remotes, st.warns⟩ : St) :=
            ⟨⟨[], by simp⟩, ⟨_, rfl⟩, ⟨[], by simp⟩, ⟨[], by simp⟩⟩
          have h2 := hd (joinClean dir call.source) call.name
            ⟨st.visited, st.locals ++ [⟨call.name, call.source, joinClean dir call.source, files⟩],
              st.remotes, st.warns⟩
          rw [hdes] at h2
          exact StExt.trans h1 h2
        cases e? with
        | none =>
          rw [processCalls_descend_ok fs descend dir cf call rest st files st2 hl hf hdes]
          exact StExt.trans hext (ih _)
        | some e =>
          rw [processCalls_descend_err fs descend dir cf call rest st files st2 e hl hf hdes]
          refine StExt.trans (StExt.trans hext ?_) (ih _)
          exact ⟨⟨[], by simp⟩, ⟨[], by simp⟩, ⟨[], by simp⟩, ⟨_, rfl⟩⟩

theorem analyzeRecursive_stExt (fs : FS) :
    ∀ fuel dir cf st, StExt st (analyzeRecursive fs fuel dir cf st).1 := by
  intro fuel
  induction fuel with
  | zero => intro dir cf st; exact StExt.refl st
  | succ n ih =>
    intro dir cf st
    by_cases hv : dir ∈ st.visited
    · rw [analyzeRecursive_visited fs n dir cf st hv]; exact StExt.refl st
    · cases hp : (fs.find dir).parseErr with
      | true =>
        rw [analyzeRecursive_parse fs n dir cf st hv hp]
        exact ⟨⟨[dir], by simp⟩, ⟨[], by simp⟩, ⟨[], by simp⟩, ⟨[], by simp⟩⟩
      | false =>
        rw [analyzeRecursive_descend fs n dir cf st hv hp]
        refine StExt.trans ?_ (processCalls_stExt fs _ dir cf (fun p l s => ih p l s) _ _)
        exact ⟨⟨[dir], by simp⟩, ⟨[], by simp⟩, ⟨[], by simp⟩, ⟨[], by simp⟩⟩

theorem processCalls_snd_none (fs : FS) (descend : FPath → GoStr → St → St × Option Err)
    (dir : FPath) (cf : GoStr) :
    ∀ calls st, (processCalls fs descend dir cf calls st).2 = none := by
  intro calls
  induction calls with
  | nil => intro st; rfl
  | cons call rest ih =>
    intro st
    cases hl : isLocalPath call.source with
    | false => rw [processCalls_remote_eq fs descend dir cf call rest st hl]; exact ih _
    | true =>
      cases hf : listTerraformFiles fs (joinClean dir call.source) with
      | none => rw [processCalls_skip_eq fs descend dir cf call rest st hl hf]; exact ih _
      | some files =>
        rcases hdes : descend (joinClean dir call.source) call.name
          ⟨st.visited, st.locals ++ [⟨call.name, call.source, joinClean dir call.source, files⟩],
            st.remotes, st.warns⟩ with ⟨st2, e?⟩
        cases e? with
        | none =>
          rw [processCalls_descend_ok fs descend dir cf call rest st files st2 hl hf hdes]
          exact ih _
        | some e =>
          rw [processCalls_descend_err fs descend dir cf call rest st files st2 e hl hf hdes]
          exact ih _

theorem processCalls_visited_nodup (fs : FS) (descend : FPath → GoStr → St → St × Option Err)
    (dir : FPath) (cf : GoStr)
    (hd : ∀ p l s, s.visited.Nodup → ((descend p l s).1.visited).Nodup) :
    ∀ calls st, st.visited.Nodup → ((processCalls fs descend dir cf calls st).1.visited).Nodup := by
  intro calls
  induction calls with
  | nil => intro st h; exact h
  | cons call rest ih =>
    intro st h
    cases hl : isLocalPath call.source with
    | false => rw [processCalls_remote_eq fs descend dir cf call rest st hl]; exact ih _ h
    | true =>
      cases hf : listTerraformFiles fs (joinClean dir call.source) with
      | none => rw [processCalls_skip_eq fs descend dir cf call rest st hl hf]; exact ih _ h
      | some files =>
        rcases hdes : descend (joinClean dir call.source) call.name
          ⟨st.visited, st.locals ++ [⟨call.name, call.source, joinClean dir call.source, files⟩],
            st.remotes, st.warns⟩ with ⟨st2, e?⟩
        have h2 : st2.visited.Nodup := by
          have := hd (joinClean dir call.source) call.name
            ⟨st.visited, st.locals ++ [⟨call.name, call.source, joinClean dir call.source, files⟩],
              st.remotes, st.warns⟩ h
          rw [hdes] at this
          exact this
        cases e? with
        | none =>
          rw [processCalls_descend_ok fs descend dir cf call rest st files st2 hl hf hdes]
          exact ih _ h2
        | some e =>
          rw [processCalls_descend_err fs descend dir cf call rest st files st2 e hl hf hdes]
          exact ih _ h2

theorem analyzeRecursive_visited_nodup (fs : FS) :
    ∀ fuel dir cf st, st.visited.Nodup → ((analyzeRecursive fs fuel dir cf st).1.visited).Nodup := by
  intro fuel
  induction fuel with
  | zero => intro dir cf st h; exact h
  | succ n ih =>
    intro dir cf st h
    by_cases hv : dir ∈ st.visited
    · rw [analyzeRecursive_visited fs n dir cf st hv]; exact h
    · cases hp : (fs.find dir).parseErr with
      | true =>
        rw [analyzeRecursive_parse fs n dir cf st hv hp]
        exact List.nodup_cons.mpr ⟨hv, h⟩
      | false =>
        rw [analyzeRecursive_descend fs n dir cf st hv hp]
        exact processCalls_visited_nodup fs _ dir cf (fun p l s => ih p l s) _ _
          (List.nodup_cons.mpr ⟨hv, h⟩)

theorem processCalls_locals (fs : FS) (descend : FPath → GoStr → St → St × Option Err)
    (dir : FPath) (cf : GoStr) (hd : ∀ p l s, StExt s (descend p l s).1) :
    ∀ calls st, ∃ t, (processCalls fs descend dir cf calls st).1.locals = st.locals ++ t ∧
      (directRecords fs dir calls).Sublist t := by
  intro calls
  induction calls with
  | nil =>
    intro st
    exact ⟨[], by simp [processCalls_nil_eq], by simp [directRecords]⟩
  | cons call rest ih =>
    intro st
    cases hl : isLocalPath call.source with
    | false =>
      rw [processCalls_remote_eq fs descend dir cf call rest st hl]
      obtain ⟨t, ht, hs⟩ := ih ⟨st.visited, st.locals,
        st.remotes ++ [⟨call.name, call.source, call.version,
          if cf = [] then "(root)".toList else cf⟩], st.warns⟩
      refine ⟨t, ht, ?_⟩
      simpa [directRecords, List.filterMap_cons, hl] using hs
    | true =>
      cases hf : listTerraformFiles fs (joinClean dir call.source) with
      | none =>
        rw [processCalls_skip_eq fs descend dir cf call rest st hl hf]
        obtain ⟨t, ht, hs⟩ := ih ⟨st.visited, st.locals, st.remotes,
          st.warns ++ [Warning.cannotRead (joinClean dir call.source)]⟩
        refine ⟨t, ht, ?_⟩
        simpa [directRecords, List.filterMap_cons, hl, hf] using hs
      | some files =>
        rcases hdes : descend (joinClean dir call.source) call.name
          ⟨st.visited, st.locals ++ [⟨call.name, call.source, joinClean dir call.source, files⟩],
            st.remotes, st.warns⟩ with ⟨st2, e?⟩
        have hL : ∃ L, st2.locals =
            (st.locals ++ [⟨call.name, call.source, joinClean dir call.source, files⟩]) ++ L := by
          have := hd (joinClean dir call.source) call.name
            ⟨st.visited, st.locals ++ [⟨call.name, call.source, joinClean dir call.source, files⟩],
              st.remotes, st.warns⟩
          rw [hdes] at this
          exact this.2.1
        obtain ⟨L, hst2⟩ := hL
        have hdr : directRecords fs dir (call :: rest) =
            (⟨call.name, call.source, joinClean dir call.source, files⟩ : ModuleDetail) ::
              directRecords fs dir rest := by
          simp [directRecords, List.filterMap_cons, hl, hf]
        cases e? with
        | none =>
          rw [processCalls_descend_ok fs descend dir cf call rest st files st2 hl hf hdes]
          obtain ⟨t, ht, hs⟩ := ih st2
          refine ⟨⟨call.name, call.source, joinClean dir call.source, files⟩ :: (L ++ t), ?_, ?_⟩
          · rw [ht, hst2]; simp
          · rw [hdr]
            exact List.Sublist.cons₂ _ (hs.trans (List.sublist_append_right L t))
        | some e =>
          rw [processCalls_descend_err fs descend dir cf call rest st files st2 e hl hf hdes]
          obtain ⟨t, ht, hs⟩ := ih ⟨st2.visited, st2.locals, st2.remotes,
            st2.warns ++ [Warning.failedAnalyze (joinClean dir call.source) e]⟩
          refine ⟨⟨call.name, call.source, joinClean dir call.source, files⟩ :: (L ++ t), ?_, ?_⟩
          · rw [ht]
            show st2.locals ++ t = _
            rw [hst2]; simp
          · rw [hdr]
            exact List.Sublist.cons₂ _ (hs.trans (List.sublist_append_right L t))

/-! ## Lemmas about the deduplicating append -/

theorem appendUnseen_nil (acc : List FPath) : appendUnseen acc [] = acc := rfl

theorem appendUnseen_cons (acc : List FPath) (f : FPath) (files : List FPath) :
    appendUnseen acc (f :: files) =
      appendUnseen (if f ∈ acc then acc else acc ++ [f]) files := rfl

theorem appendUnseen_append (acc : List FPath) (a b : List FPath) :
    appendUnseen acc (a ++ b) = appendUnseen (appendUnseen acc a) b :=
  List.foldl_append _ _ _ _

theorem appendUnseen_of_subset (acc : List FPath) (l : List FPath)
    (h : ∀ x ∈ l, x ∈ acc) : appendUnseen acc l = acc := by
  induction l with
  | nil => rfl
  | cons x xs ih =>
    rw [appendUnseen_cons, if_pos (h x (List.mem_cons_self x xs))]
    exact ih (fun y hy => h y (List.mem_cons_of_mem x hy))

theorem appendUnseen_of_disjoint (l : List FPath) :
    ∀ acc : List FPath, (∀ x ∈ l, x ∉ acc) → l.Nodup → appendUnseen acc l = acc ++ l := by
  induction l with
  | nil => intro acc _ _; simp [appendUnseen_nil]
  | cons x xs ih =>
    intro acc h1 h2
    have hx : x ∉ acc := h1 x (List.mem_cons_self x xs)
    have hxxs : x ∉ xs := (List.nodup_cons.mp h2).1
    have h1' : ∀ y ∈ xs, y ∉ acc ++ [x] := by
      intro y hy hmem
      rcases List.mem_append.mp hmem with hc | hc
      · exact h1 y (List.mem_cons_of_mem x hy) hc
      · rw [List.mem_singleton] at hc
        subst hc
        exact hxxs hy
    rw [appendUnseen_cons, if_neg hx, ih (acc ++ [x]) h1' (List.nodup_cons.mp h2).2]
    simp

theorem appendUnseen_nodup (l : List FPath) :
    ∀ acc : List FPath, acc.Nodup → (appendUnseen acc l).Nodup := by
  induction l with
  | nil => intro acc h; exact h
  | cons x xs ih =>
    intro acc h
    rw [appendUnseen_cons]
    by_cases hx : x ∈ acc
    · rw [if_pos hx]; exact ih acc h
    · rw [if_neg hx]
      refine ih (acc ++ [x]) ?_
      simp [List.nodup_append, h, hx]

theorem appendUnseen_eq_dedupFirst (l : List FPath) :
    ∀ acc : List FPath, appendUnseen acc l = acc ++ dedupFirst (l.filter (fun x => x ∉ acc)) := by
  induction l with
  | nil => intro acc; simp [appendUnseen_nil, dedupFirst]
  | cons x xs ih =>
    intro acc
    by_cases hx : x ∈ acc
    · rw [appendUnseen_cons, if_pos hx, ih acc, List.filter_cons]
      simp [hx]
    · rw [appendUnseen_cons, if_neg hx, ih (acc ++ [x]), List.filter_cons,
        if_pos (show decide (x ∉ acc) = true by simpa using hx)]
      rw [dedupFirst]
      have hfilter : xs.filter (fun y => decide (y ∉ acc ++ [x])) =
          (xs.filter (fun y => y ∉ acc)).filter (fun y => y ≠ x) := by
        rw [List.filter_filter]
        apply List.filter_congr
        intro y _
        simp [List.mem_append, not_or, And.comm]
      rw [hfilter]
      simp

theorem foldl_appendUnseen_bind (mods : List ModuleDetail) :
    ∀ init : List FPath,
      mods.foldl (fun acc m => appendUnseen acc m.files) init =
        appendUnseen init (mods.flatMap (fun m => m.files)) := by
  induction mods with
  | nil => intro init; simp [appendUnseen_nil]
  | cons m rest ih =>
    intro init
    rw [List.foldl_cons, ih (appendUnseen init m.files), List.flatMap_cons,
      appendUnseen_append]

/-- C6: `isAffected` returns true iff some changed path, resolved to an
absolute path against the caller working directory, lies under the root
module directory or under some local module directory; on an empty
changed-path list it returns false. -/
theorem c6_isAffected_iff (cwd : FPath) (changed : List GoStr) (output : Output) :
    (IsAffected cwd changed output = true ↔
      ∃ f ∈ changed, isInDirectory (resolveAbs cwd f) output.rootModule.resolvedPath = true ∨
        ∃ m ∈ output.localModules, isInDirectory (resolveAbs cwd f) m.resolvedPath = true) ∧
    IsAffected cwd [] output = false := by
  constructor
  · simp [IsAffected, List.any_eq_true]
  · rfl

/-- C7: `isInDirectory` returns true iff the file path equals the directory
path or the relative path from the directory to the file neither starts with
a parent-directory step nor is exactly one parent-directory step; with the
three concrete examples of the specification. -/
theorem c7_isInDirectory_spec :
    (∀ f d : FPath, (isInDirectory f d = true ↔
      f = d ∨ ("../".toList.isPrefixOf (goRel d f) = false ∧ goRel d f ≠ "..".toList))) ∧
    isInDirectory (joinClean [] "/a/b/c".toList) (joinClean [] "/a/b/c".toList) = true ∧
    isInDirectory (joinClean [] "/a/b/file.tf".toList) (joinClean [] "/a/b/c".toList) = false ∧
    isInDirectory (joinClean [] "/a/b/c/d/file.tf".toList) (joinClean [] "/a/b/c".toList) = true := by
  refine ⟨?_, by decide, by decide, by decide⟩
  intro f d
  by_cases hfd : f = d
  · subst hfd
    have hL : isInDirectory f f = true := by
      simp only [isInDirectory]
      rw [goRel_self]
      decide
    simp [hL]
  · simp only [isInDirectory, Bool.and_eq_true, Bool.not_eq_true', decide_eq_false_iff_not]
    rw [or_iff_right hfd]

/-- C8: `isLocalPath` is a pure total predicate returning true iff the
source starts with the two-character prefix `./` or the three-character
prefix `../`; registry identifiers, `git::`, `s3::`, and host-qualified
registry sources are classified remote. -/
theorem c8_isLocalPath_spec :
    (∀ s : GoStr, (isLocalPath s = true ↔ s.take 2 = "./".toList ∨ s.take 3 = "../".toList)) ∧
    isLocalPath "./mod".toList = true ∧ isLocalPath "../shared".toList = true ∧
    isLocalPath "terraform-aws-modules/eks/aws".toList = false ∧
    isLocalPath "git::https://example.com/repo.git".toList = false ∧
    isLocalPath "s3::https://bucket/module.zip".toList = false ∧
    isLocalPath "registry.terraform.io/ns/name/aws".toList = false := by
  refine ⟨?_, by decide, by decide, by decide, by decide, by decide, by decide⟩
  intro s
  rw [isLocalPath, Bool.or_eq_true]
  have h1 : ("./".toList.isPrefixOf s = true) ↔ s.take 2 = "./".toList := by
    rw [List.isPrefixOf_iff_prefix, List.prefix_iff_eq_take]
    constructor
    · intro h; exact h.symm
    · intro h; exact h.symm
  have h2 : ("../".toList.isPrefixOf s = true) ↔ s.take 3 = "../".toList := by
    rw [List.isPrefixOf_iff_prefix, List.prefix_iff_eq_take]
    constructor
    · intro h; exact h.symm
    · intro h; exact h.symm
  rw [h1, h2]

/-- C9: `collectAllFiles` is the first-seen-order union of the root module
files followed by each local module files in `localModules` order with
duplicates removed keeping the first occurrence, and hence contains no
duplicate paths. -/
theorem c9_collectAllFiles_spec (output : Output) :
    CollectAllFiles output =
      dedupFirst (output.rootModule.files ++ output.localModules.flatMap (fun m => m.files)) ∧
    (CollectAllFiles output).Nodup := by
  constructor
  · rw [CollectAllFiles, foldl_appendUnseen_bind, ← appendUnseen_append,
      appendUnseen_eq_dedupFirst]
    simp
  · rw [CollectAllFiles, foldl_appendUnseen_bind, ← appendUnseen_append]
    exact appendUnseen_nodup _ [] List.nodup_nil

/-! ## The change-impact fold -/

theorem foldAffected_eq (aff : FPath → Bool) (M : ModuleDetail)
    (hMa : aff M.resolvedPath = true) (hnd : M.files.Nodup) :
    ∀ mods : List ModuleDetail,
      (∀ m' ∈ mods, m' ≠ M → aff m'.resolvedPath = false) →
      ∀ acc : List FPath, acc = [] ∨ acc = M.files →
        (M ∈ mods →
          mods.foldl (fun a m => if aff m.resolvedPath then appendUnseen a m.files else a) acc =
            M.files) ∧
        (mods.foldl (fun a m => if aff m.resolvedPath then appendUnseen a m.files else a) acc = acc ∨
          mods.foldl (fun a m => if aff m.resolvedPath then appendUnseen a m.files else a) acc =
            M.files) := by
  intro mods
  induction mods with
  | nil =>
    intro _ acc hacc
    exact ⟨fun h => absurd h (List.not_mem_nil M), Or.inl rfl⟩
  | cons m rest ih =>
    intro hoth acc hacc
    have hoth' : ∀ m' ∈ rest, m' ≠ M → aff m'.resolvedPath = false :=
      fun m' hm' => hoth m' (List.mem_cons_of_mem m hm')
    by_cases hm : m = M
    · subst hm
      have hstep : (if aff m.resolvedPath then appendUnseen acc m.files else acc) = m.files := by
        rw [if_pos hMa]
        rcases hacc with h | h
        · subst h
          simpa using appendUnseen_of_disjoint m.files [] (by simp) hnd
        · subst h
          exact appendUnseen_of_subset m.files m.files (fun x hx => hx)
      rw [List.foldl_cons, hstep]
      obtain ⟨h1, h2⟩ := ih hoth' m.files (Or.inr rfl)
      refine ⟨fun _ => ?_, ?_⟩
      · rcases h2 with h | h
        · exact h
        · exact h
      · right
        rcases h2 with h | h
        · exact h
        · exact h
    · have haffm : aff m.resolvedPath = false := hoth m (List.mem_cons_self m rest) hm
      have hstep : (if aff m.resolvedPath then appendUnseen acc m.files else acc) = acc := by
        rw [haffm]; simp
      rw [List.foldl_cons, hstep]
      obtain ⟨h1, h2⟩ := ih hoth' acc hacc
      refine ⟨fun hMrest => ?_, h2⟩
      rcases List.mem_cons.mp hMrest with h | h
      · exact absurd h.symm hm
      · exact h1 h

/-- C5: when every changed path lies under local module `M`'s directory and
under no other module directory (root included), `filterRelatedFiles`
returns exactly `M`'s files — not the root's and not any sibling's.
(`M.files.Nodup` is the data-model invariant that one record's file list has
no duplicates.) -/
theorem c5_filter_only_module_files (cwd : FPath) (allFiles : List FPath)
    (changed : List GoStr) (output : Output) (M : ModuleDetail)
    (hM : M ∈ output.localModules)
    (hne : changed ≠ [])
    (hnd : M.files.Nodup)
    (hin : ∀ c ∈ changed, isInDirectory (resolveAbs cwd c) M.resolvedPath = true)
    (hroot : ∀ c ∈ changed, isInDirectory (resolveAbs cwd c) output.rootModule.resolvedPath = false)
    (hoth : ∀ m' ∈ output.localModules, m' ≠ M →
      ∀ c ∈ changed, isInDirectory (resolveAbs cwd c) m'.resolvedPath = false) :
    FilterRelatedFiles cwd allFiles changed output = M.files := by
  have haffM : pathAffected cwd changed M.resolvedPath = true := by
    obtain ⟨c, hc⟩ := List.exists_mem_of_ne_nil changed hne
    exact List.any_eq_true.mpr ⟨c, hc, hin c hc⟩
  have haffroot : pathAffected cwd changed output.rootModule.resolvedPath = false := by
    rw [pathAffected, List.any_eq_false]
    intro c hc
    simp [hroot c hc]
  have haffoth : ∀ m' ∈ output.localModules, m' ≠ M →
      pathAffected cwd changed m'.resolvedPath = false := by
    intro m' hm' hne'
    rw [pathAffected, List.any_eq_false]
    intro c hc
    simp [hoth m' hm' hne' c hc]
  rw [FilterRelatedFiles]
  simp only [haffroot, Bool.false_eq_true, if_false]
  exact (foldAffected_eq (pathAffected cwd changed) M haffM hnd output.localModules
    haffoth [] (Or.inl rfl)).1 hM

/-- Witness for C5: one changed file under `/repo/modules/m` of `outputW`
yields exactly `modM`'s files. -/
theorem c5_filter_only_module_files_witness :
    FilterRelatedFiles ["w".toList] [] ["/repo/modules/m/main.tf".toList] outputW = modM.files :=
  c5_filter_only_module_files ["w".toList] [] ["/repo/modules/m/main.tf".toList] outputW modM
    (by decide) (by decide) (by decide) (by decide) (by decide) (by decide)

/-- C1 counterexample: in `fsShared` the module `/r/m` is referenced by
local calls from the two distinct caller directories `/r/a` and `/r/b`, and
`localModules` ends up with two records whose `resolvedPath` is `/r/m` —
the record is appended before the visited-set check, which only guards the
recursive descent. -/
theorem c1_duplicate_path_counterexample :
    ¬ (localPathsOf (Analyze fsShared ["r".toList])).Nodup := by decide

/-- C1 amended: what the visited-set does guarantee is that no directory is
analyzed twice — the visited set stays duplicate-free through the whole
traversal (records in `localModules`, however, may repeat a canonical path
when two caller directories reference the same module). -/
theorem c1_visited_nodup (fs : FS) (fuel : Nat) (dir : FPath) (cf : GoStr) (st : St)
    (h : st.visited.Nodup) :
    ((analyzeRecursive fs fuel dir cf st).1.visited).Nodup :=
  analyzeRecursive_visited_nodup fs fuel dir cf st h

/-- Witness for the amended C1, at the shared-module tree. -/
theorem c1_visited_nodup_witness :
    ([] : List FPath).Nodup ∧
      ((analyzeRecursive fsShared 5 ["r".toList] [] ⟨[], [], [], []⟩).1.visited).Nodup :=
  ⟨by decide, c1_visited_nodup fsShared 5 ["r".toList] [] ⟨[], [], [], []⟩ (by decide)⟩

/-- C2 counterexample: `fsOrder1` and `fsOrder2` are the same filesystem
state — the same directories, the same parser results, with the root's two
module calls merely listed in the two map-iteration orders — yet `analyze`
returns different results, so declaration order is not what drives the
processing order and two runs on an identical filesystem state need not
agree. -/
theorem c2_order_counterexample :
    ((fsOrder1.find ["r".toList]).calls).Perm ((fsOrder2.find ["r".toList]).calls) ∧
    fsOrder1.find ["r".toList, "a".toList] = fsOrder2.find ["r".toList, "a".toList] ∧
    fsOrder1.find ["r".toList, "b".toList] = fsOrder2.find ["r".toList, "b".toList] ∧
    Analyze fsOrder1 ["r".toList] ≠ Analyze fsOrder2 ["r".toList] := by decide

/-- C2 amended: a visited directory's module calls are processed in the
parser-map iteration order of that run (not necessarily declaration order,
and not stable across runs); the records the directory contributes directly
appear in `localModules` in exactly that iteration order, interleaved only
with records produced by the recursive descents. -/
theorem c2_direct_records_in_iteration_order (fs : FS) (fuel : Nat) (dir : FPath)
    (cf : GoStr) (st : St) (h : dir ∉ st.visited) (hp : (fs.find dir).parseErr = false) :
    ∃ t, (analyzeRecursive fs (fuel + 1) dir cf st).1.locals = st.locals ++ t ∧
      (directRecords fs dir (fs.find dir).calls).Sublist t := by
  rw [analyzeRecursive_descend fs fuel dir cf st h hp]
  have hres := processCalls_locals fs (fun p l s => analyzeRecursive fs fuel p l s) dir cf
    (fun p l s => analyzeRecursive_stExt fs fuel p l s) (fs.find dir).calls
    ⟨dir :: st.visited, st.locals, st.remotes, st.warns⟩
  simpa using hres

/-- Witness for the amended C2, at the two-call root of `fsOrder1`. -/
theorem c2_direct_records_in_iteration_order_witness :
    ∃ t, (analyzeRecursive fsOrder1 3 ["r".toList] [] ⟨[], [], [], []⟩).1.locals = [] ++ t ∧
      (directRecords fsOrder1 ["r".toList] ((fsOrder1.find ["r".toList]).calls)).Sublist t :=
  c2_direct_records_in_iteration_order fsOrder1 2 ["r".toList] [] ⟨[], [], [], []⟩
    (by decide) (by decide)
/-- C3: in a two-module cycle — directory `pA` declares exactly one local
call resolving to `pB` and `pB` declares exactly one local call resolving
back to `pA` — `analyze` starting from `pA` terminates without exhausting
the fuel bound (each canonical directory is entered at most once; the second
arrival at `pA` hits the visited set and returns immediately), succeeds, and
produces exactly two local module records. -/
theorem c3_cycle_terminates_two_records (pA pB : FPath) (eA eB : List DirEntry)
    (nA nB sA sB vA vB : GoStr) (fs : FS)
    (hne : pA ≠ pB)
    (hlB : isLocalPath sB = true) (hlA : isLocalPath sA = true)
    (hjB : joinClean pA sB = pB) (hjA : joinClean pB sA = pA)
    (hfs : fs = ⟨[(pA, ⟨some eA, [⟨nB, sB, vB⟩], false⟩),
                  (pB, ⟨some eB, [⟨nA, sA, vA⟩], false⟩)]⟩) :
    Analyze fs pA = Res.ok ⟨⟨[], [], pA, tfNames pA eA⟩,
        [⟨nB, sB, pB, tfNames pB eB⟩, ⟨nA, sA, pA, tfNames pA eA⟩], []⟩ [] ∧
    (localPathsOf (Analyze fs pA)).length = 2 := by
  have hdirs : fs.dirs = [(pA, ⟨some eA, [⟨nB, sB, vB⟩], false⟩),
      (pB, ⟨some eB, [⟨nA, sA, vA⟩], false⟩)] := by rw [hfs]
  have hfA : fs.find pA = ⟨some eA, [⟨nB, sB, vB⟩], false⟩ := by
    rw [FS.find, hdirs, List.find?_cons_of_pos _ (by simp)]
  have hfB : fs.find pB = ⟨some eB, [⟨nA, sA, vA⟩], false⟩ := by
    rw [FS.find, hdirs, List.find?_cons_of_neg _ (by simp [hne]),
      List.find?_cons_of_pos _ (by simp)]
  have hlistA : listTerraformFiles fs pA = some (tfNames pA eA) := by
    rw [listTerraformFiles, hfA]
  have hlistB : listTerraformFiles fs pB = some (tfNames pB eB) := by
    rw [listTerraformFiles, hfB]
  have hfuel : fs.dirs.length + 1 = 2 + 1 := by rw [hdirs]; rfl
  have h3 : analyzeRecursive fs (0 + 1) pA nA
      ⟨[pB, pA], [⟨nB, sB, pB, tfNames pB eB⟩, ⟨nA, sA, pA, tfNames pA eA⟩], [], []⟩ =
      (⟨[pB, pA], [⟨nB, sB, pB, tfNames pB eB⟩, ⟨nA, sA, pA, tfNames pA eA⟩], [], []⟩, none) :=
    analyzeRecursive_visited fs 0 pA nA _ (by simp)
  have h2 : analyzeRecursive fs (1 + 1) pB nB ⟨[pA], [⟨nB, sB, pB, tfNames pB eB⟩], [], []⟩ =
      (⟨[pB, pA], [⟨nB, sB, pB, tfNames pB eB⟩, ⟨nA, sA, pA, tfNames pA eA⟩], [], []⟩, none) := by
    rw [analyzeRecursive_descend fs 1 pB nB _ (by simp [Ne.symm hne]) (by rw [hfB]), hfB]
    rw [processCalls_descend_ok fs _ pB nB ⟨nA, sA, vA⟩ [] _ (tfNames pA eA)
      ⟨[pB, pA], [⟨nB, sB, pB, tfNames pB eB⟩, ⟨nA, sA, pA, tfNames pA eA⟩], [], []⟩
      hlA (by rw [hjA]; exact hlistA) (by rw [hjA]; exact h3)]
    rfl
  have h1 : analyzeRecursive fs (2 + 1) pA [] ⟨[], [], [], []⟩ =
      (⟨[pB, pA], [⟨nB, sB, pB, tfNames pB eB⟩, ⟨nA, sA, pA, tfNames pA eA⟩], [], []⟩, none) := by
    rw [analyzeRecursive_descend fs 2 pA [] _ (by simp) (by rw [hfA]), hfA]
    rw [processCalls_descend_ok fs _ pA [] ⟨nB, sB, vB⟩ [] _ (tfNames pB eB)
      ⟨[pB, pA], [⟨nB, sB, pB, tfNames pB eB⟩, ⟨nA, sA, pA, tfNames pA eA⟩], [], []⟩
      hlB (by rw [hjB]; exact hlistB) (by rw [hjB]; exact h2)]
    rfl
  have hmain : Analyze fs pA = Res.ok ⟨⟨[], [], pA, tfNames pA eA⟩,
      [⟨nB, sB, pB, tfNames pB eB⟩, ⟨nA, sA, pA, tfNames pA eA⟩], []⟩ [] := by
    simp only [Analyze, hlistA, hfuel]
    rw [h1]
  exact ⟨hmain, by rw [hmain]; rfl⟩

/-- Witness for C3, at the concrete cycle `fsCycle`. -/
theorem c3_cycle_terminates_two_records_witness :
    Analyze fsCycle ["x".toList, "a".toList] =
      Res.ok ⟨⟨[], [], ["x".toList, "a".toList],
          tfNames ["x".toList, "a".toList] [tfEntry "a.tf"]⟩,
        [⟨"mb".toList, "../b".toList, ["x".toList, "b".toList],
            tfNames ["x".toList, "b".toList] [tfEntry "b.tf"]⟩,
         ⟨"ma".toList, "../a".toList, ["x".toList, "a".toList],
            tfNames ["x".toList, "a".toList] [tfEntry "a.tf"]⟩], []⟩ [] ∧
    (localPathsOf (Analyze fsCycle ["x".toList, "a".toList])).length = 2 :=
  c3_cycle_terminates_two_records ["x".toList, "a".toList] ["x".toList, "b".toList]
    [tfEntry "a.tf"] [tfEntry "b.tf"] "ma".toList "mb".toList "../a".toList "../b".toList
    "".toList "".toList fsCycle (by decide) (by decide) (by decide) (by decide) (by decide) rfl

/-- C4: diagnostics reported by the config parser for the directory being
visited fail that traversal step fatally with a ParseError identifying the
directory; a fatal error returned by a recursive call on a local submodule
is downgraded to a non-fatal `failedAnalyze` warning at the parent, which
continues with the remaining sibling calls, and the per-directory call loop
never itself returns a fatal error, so the overall `analyze` result stays
successful — shown concretely on `fsParse`, where the parse-broken child
`/p/bad` only produces a warning while the sibling `/p/ok` is still
resolved. -/
theorem c4_parse_fatal_recursive_downgraded :
    (∀ (fs : FS) (fuel : Nat) (dir : FPath) (cf : GoStr) (st : St),
      dir ∉ st.visited → (fs.find dir).parseErr = true →
        analyzeRecursive fs (fuel + 1) dir cf st =
          (⟨dir :: st.visited, st.locals, st.remotes, st.warns⟩, some (Err.parse dir))) ∧
    (∀ (fs : FS) (descend : FPath → GoStr → St → St × Option Err) (dir : FPath) (cf : GoStr)
      (call : ModuleCall) (rest : List ModuleCall) (st : St) (files : List FPath)
      (st2 : St) (e : Err),
      isLocalPath call.source = true →
      listTerraformFiles fs (joinClean dir call.source) = some files →
      descend (joinClean dir call.source) call.name
        ⟨st.visited, st.locals ++ [⟨call.name, call.source, joinClean dir call.source, files⟩],
          st.remotes, st.warns⟩ = (st2, some e) →
      processCalls fs descend dir cf (call :: rest) st =
        processCalls fs descend dir cf rest
          ⟨st2.visited, st2.locals, st2.remotes,
            st2.warns ++ [Warning.failedAnalyze (joinClean dir call.source) e]⟩) ∧
    (∀ (fs : FS) (descend : FPath → GoStr → St → St × Option Err) (dir : FPath) (cf : GoStr)
      (calls : List ModuleCall) (st : St),
      (processCalls fs descend dir cf calls st).2 = none) ∧
    Analyze fsParse ["p".toList] =
      Res.ok ⟨⟨[], [], ["p".toList], [["p".toList, "main.tf".toList]]⟩,
        [⟨"mbad".toList, "./bad".toList, ["p".toList, "bad".toList],
            [["p".toList, "bad".toList, "bad.tf".toList]]⟩,
         ⟨"mok".toList, "./ok".toList, ["p".toList, "ok".toList],
            [["p".toList, "ok".toList, "ok.tf".toList]]⟩], []⟩
        [Warning.failedAnalyze ["p".toList, "bad".toList]
          (Err.parse ["p".toList, "bad".toList])] := by
  refine ⟨?_, ?_, ?_, by decide⟩
  · intro fs fuel dir cf st h hp
    exact analyzeRecursive_parse fs fuel dir cf st h hp
  · intro fs descend dir cf call rest st files st2 e hl hf hd
    exact processCalls_descend_err fs descend dir cf call rest st files st2 e hl hf hd
  · intro fs descend dir cf calls st
    exact processCalls_snd_none fs descend dir cf calls st

/-- Witness for C4: the parse-failure step, the downgrade step and the
no-fatal-error property of the call loop, each at concrete inputs. -/
theorem c4_parse_fatal_recursive_downgraded_witness :
    (analyzeRecursive fsParse 1 ["p".toList, "bad".toList] [] ⟨[], [], [], []⟩ =
      (⟨[["p".toList, "bad".toList]], [], [], []⟩,
        some (Err.parse ["p".toList, "bad".toList]))) ∧
    (processCalls fsParse (fun _ _ s => (s, some Err.fuel)) ["p".toList] []
        [⟨"mbad".toList, "./bad".toList, "".toList⟩] ⟨[], [], [], []⟩ =
      processCalls fsParse (fun _ _ s => (s, some Err.fuel)) ["p".toList] [] []
        ⟨[], [⟨"mbad".toList, "./bad".toList, ["p".toList, "bad".toList],
            [["p".toList, "bad".toList, "bad.tf".toList]]⟩], [],
          [Warning.failedAnalyze ["p".toList, "bad".toList] Err.fuel]⟩) ∧
    (processCalls fsParse (fun _ _ s => (s, some Err.fuel)) ["p".toList] []
        [⟨"mbad".toList, "./bad".toList, "".toList⟩] ⟨[], [], [], []⟩).2 = none :=
  ⟨c4_parse_fatal_recursive_downgraded.1 fsParse 0 ["p".toList, "bad".toList] []
      ⟨[], [], [], []⟩ (by decide) (by decide),
   c4_parse_fatal_recursive_downgraded.2.1 fsParse (fun _ _ s => (s, some Err.fuel))
      ["p".toList] [] ⟨"mbad".toList, "./bad".toList, "".toList⟩ [] ⟨[], [], [], []⟩
      [["p".toList, "bad".toList, "bad.tf".toList]]
      ⟨[], [⟨"mbad".toList, "./bad".toList, ["p".toList, "bad".toList],
          [["p".toList, "bad".toList, "bad.tf".toList]]⟩], [], []⟩ Err.fuel
      (by decide) (by decide) (by decide),
   c4_parse_fatal_recursive_downgraded.2.2.1 fsParse (fun _ _ s => (s, some Err.fuel))
      ["p".toList] [] [⟨"mbad".toList, "./bad".toList, "".toList⟩] ⟨[], [], [], []⟩⟩

/-- C10: when listing the root directory's configuration files fails,
`analyze` fails fatally (an error condition beyond root canonicalization and
root parse failure), while the identical listing failure on a local
submodule's directory is a non-fatal `cannotRead` warning that skips the
call — shown concretely on `fsMissing`, whose missing child `/q/gone` only
produces a warning and no record. -/
theorem c10_root_listing_fatal :
    (∀ (fs : FS) (dir : FPath), (fs.find dir).entries = none →
      Analyze fs dir = Res.err (Err.rootList dir)) ∧
    (∀ (fs : FS) (descend : FPath → GoStr → St → St × Option Err) (dir : FPath) (cf : GoStr)
      (call : ModuleCall) (rest : List ModuleCall) (st : St),
      isLocalPath call.source = true →
      listTerraformFiles fs (joinClean dir call.source) = none →
      processCalls fs descend dir cf (call :: rest) st =
        processCalls fs descend dir cf rest
          ⟨st.visited, st.locals, st.remotes,
            st.warns ++ [Warning.cannotRead (joinClean dir call.source)]⟩) ∧
    Analyze fsMissing ["q".toList] =
      Res.ok ⟨⟨[], [], ["q".toList], [["q".toList, "main.tf".toList]]⟩, [], []⟩
        [Warning.cannotRead ["q".toList, "gone".toList]] := by
  refine ⟨?_, ?_, by decide⟩
  · intro fs dir h
    have hnone : listTerraformFiles fs dir = none := by rw [listTerraformFiles, h]
    simp [Analyze, hnone]
  · intro fs descend dir cf call rest st hl hf
    exact processCalls_skip_eq fs descend dir cf call rest st hl hf

/-- Witness for C10: root-listing failure on the empty filesystem, and the
non-fatal skip at the missing child of `fsMissing`. -/
theorem c10_root_listing_fatal_witness :
    (Analyze ⟨[]⟩ ["z".toList] = Res.err (Err.rootList ["z".toList])) ∧
    (processCalls fsMissing (fun _ _ s => (s, none)) ["q".toList] []
        [⟨"gone".toList, "./gone".toList, "".toList⟩] ⟨[], [], [], []⟩ =
      processCalls fsMissing (fun _ _ s => (s, none)) ["q".toList] [] []
        ⟨[], [], [], [Warning.cannotRead ["q".toList, "gone".toList]]⟩) :=
  ⟨c10_root_listing_fatal.1 ⟨[]⟩ ["z".toList] (by decide),
   c10_root_listing_fatal.2.1 fsMissing (fun _ _ s => (s, none)) ["q".toList] []
      ⟨"gone".toList, "./gone".toList, "".toList⟩ [] ⟨[], [], [], []⟩
      (by decide) (by decide)⟩
